import Mathlib

/-!
Verification of the Discord-Faceit-Helper team-balancing bot.

Shallow embedding of the repository's core logic:
* `team_balancer.py` — `balance_teams` and `swap_players` (greedy ELO balancing,
  position-preserving player swap);
* `database.py` — the JSON identity store (`link_user`, `unlink_user`,
  `get_faceit_username`), modelled as an insertion-ordered association list,
  matching Python `dict` semantics;
* `bot.py` — the roster→teams transition `create_balanced_teams` (ELO
  resolution with partial-failure reporting) and the snapshot-store effect of
  `auto_recover_session`.

Machine-independent data (Python ints, strings) is modelled with `Nat` and
`String`; fallible operations return `Option`.
-/

/-- A player dictionary with the keys `discord_id`, `name` and `elo`
(`faceit_username` is carried by the bot but never consulted by the
balancer, so it is omitted from the record). -/
structure Player where
  discord_id : String
  name : String
  elo : Nat
deriving DecidableEq, Repr

/-- `sum(p['elo'] for p in team)`. -/
def sumElo (team : List Player) : Nat :=
  (team.map Player.elo).sum

/-- One step of the stable descending insertion used to model Python's
`sorted(players, key=lambda p: p['elo'], reverse=True)`: a later-input
player `x` is placed after every already-sorted player of elo `≥ x.elo`,
which preserves input order among equal elos (Python's sort is stable,
and `reverse=True` keeps equal-key elements in input order). -/
def insertDesc (x : Player) : List Player → List Player
  | [] => [x]
  | y :: ys => if x.elo ≤ y.elo then y :: insertDesc x ys else x :: y :: ys

/-- `sorted(players, key=lambda p: p['elo'], reverse=True)`. -/
def sortedByEloDesc (players : List Player) : List Player :=
  players.foldl (fun acc p => insertDesc p acc) []

/-- The loop body of `TeamBalancer.balance_teams`:
`if len(team_a) < 5 and (len(team_b) >= 5 or team_a_total <= team_b_total)`
append to team A, else append to team B. -/
def teamStep (ab : List Player × List Player) (p : Player) :
    List Player × List Player :=
  if ab.1.length < 5 ∧ (5 ≤ ab.2.length ∨ sumElo ab.1 ≤ sumElo ab.2) then
    (ab.1 ++ [p], ab.2)
  else
    (ab.1, ab.2 ++ [p])

/-- `TeamBalancer.balance_teams`: raises `ValueError` (here: `none`) unless
exactly 10 players are given; otherwise sorts by ELO descending and greedily
assigns each player via `teamStep`. -/
def balance_teams (players : List Player) : Option (List Player × List Player) :=
  if players.length = 10 then
    some ((sortedByEloDesc players).foldl teamStep ([], []))
  else
    none

/-- Spec-side greedy step, written from the specification's words: a team
that has already reached `TeamSize = 5` is skipped even if its sum is
lower; otherwise the participant goes to the team with the lower current
summed rating (team A when the sums are equal, the implicit tie-break). -/
def specAssign (ab : List Player × List Player) (p : Player) :
    List Player × List Player :=
  if 5 ≤ ab.1.length then (ab.1, ab.2 ++ [p])
  else if 5 ≤ ab.2.length then (ab.1 ++ [p], ab.2)
  else if sumElo ab.1 ≤ sumElo ab.2 then (ab.1 ++ [p], ab.2)
  else (ab.1, ab.2 ++ [p])

/-- The player-lookup loop of `TeamBalancer.swap_players`: first index (and
player) whose `discord_id` matches, scanning the given team only. -/
def findPlayer : List Player → String → Option (Nat × Player)
  | [], _ => none
  | p :: ps, pid =>
    if p.discord_id = pid then some (0, p)
    else (findPlayer ps pid).map (fun ip => (ip.1 + 1, ip.2))

/-- `TeamBalancer.swap_players`: looks each id up in its own team, raises
`ValueError` (here: `none`) when either lookup fails, otherwise returns
copies of both teams with the two found positions overwritten by the
opposite player. -/
def swap_players (team_a team_b : List Player)
    (player_a_id player_b_id : String) :
    Option (List Player × List Player) :=
  match findPlayer team_a player_a_id, findPlayer team_b player_b_id with
  | some ia, some ib =>
    some (team_a.set ia.1 ib.2, team_b.set ib.1 ia.2)
  | _, _ => none

/-- A stored user record with the keys `faceit_username` and
`last_updated`. The timestamp (`datetime.now().isoformat()` in the
source) is supplied by the caller in this model. -/
structure UserRecord where
  faceit_username : String
  last_updated : String
deriving DecidableEq, Repr

/-- Python `dict` assignment `d[k] = v` on an insertion-ordered association
list: overwrite in place when the key exists, otherwise append. -/
def dictSet {α : Type} (d : List (String × α)) (k : String) (v : α) :
    List (String × α) :=
  if d.any (fun e => e.1 = k) then
    d.map (fun e => if e.1 = k then (k, v) else e)
  else
    d ++ [(k, v)]

/-- Python `d.get(k)`: value of the (unique) entry with key `k`. -/
def dictGet {α : Type} (d : List (String × α)) (k : String) : Option α :=
  (d.find? (fun e => e.1 = k)).map (fun e => e.2)

/-- Python `del d[k]`. -/
def dictDel {α : Type} (d : List (String × α)) (k : String) :
    List (String × α) :=
  d.filter (fun e => ¬ e.1 = k)

/-- `Database.link_user`: overwrites the record stored for
`str(discord_id)` with the given handle and timestamp (the source always
returns `True`, so only the new data is modelled). -/
def link_user (data : List (String × UserRecord)) (discord_id : String)
    (faceit_username last_updated : String) : List (String × UserRecord) :=
  dictSet data discord_id ⟨faceit_username, last_updated⟩

/-- `Database.unlink_user`: delete the key and return `True` when present,
otherwise return `False` and leave the data unchanged. -/
def unlink_user (data : List (String × UserRecord)) (discord_id : String) :
    Bool × List (String × UserRecord) :=
  if (dictGet data discord_id).isSome then (true, dictDel data discord_id)
  else (false, data)

/-- `Database.get_faceit_username`: the stored handle, when linked. -/
def get_faceit_username (data : List (String × UserRecord))
    (discord_id : String) : Option String :=
  (dictGet data discord_id).map UserRecord.faceit_username

/-- The external lookups consulted by `BalanceSessionView.create_balanced_teams`:
`db.get_faceit_username`, `faceit.get_player_csgo_elo`, and
`guild.get_member(...).display_name`. -/
structure ResolveEnv where
  faceitUsername : String → Option String
  playerElo : String → Option Nat
  memberName : String → Option String

/-- One iteration of the ELO-fetch loop in `create_balanced_teams`: an
unlinked participant or a failed ELO lookup is appended to
`failed_players`; otherwise a player dictionary is appended to `players`
(display name falls back to the FACEIT username when the member lookup
fails). -/
def fetchStep (env : ResolveEnv) (acc : List Player × List String)
    (did : String) : List Player × List String :=
  match env.faceitUsername did with
  | none => (acc.1, acc.2 ++ [did])
  | some u =>
    match env.playerElo u with
    | none => (acc.1, acc.2 ++ [did])
    | some e => (acc.1 ++ [⟨did, (env.memberName did).getD u, e⟩], acc.2)

/-- The whole ELO-fetch loop: `(players, failed_players)`. -/
def fetchPlayers (env : ResolveEnv) (participants : List String) :
    List Player × List String :=
  participants.foldl (fetchStep env) ([], [])

/-- Whether resolution fails for one participant: no linked FACEIT
username, or the ELO lookup returns nothing. -/
def resolveFailed (env : ResolveEnv) (did : String) : Bool :=
  match env.faceitUsername did with
  | none => true
  | some u => (env.playerElo u).isNone

/-- Session lifecycle phases of the spec's state machine, as realised by
the view: `sOpen` = join/leave buttons live, `sBalanced` = teams shown,
`sFailed` = the partial-failure embed is shown with no interactive view. -/
inductive SessionPhase
  | sOpen
  | sBalancing
  | sBalanced
  | sFailed
deriving DecidableEq, Repr

/-- The session state touched by `create_balanced_teams`: the roster
(`self.participants`), the lifecycle phase, whether the rendered message
still carries an interactive view, the computed teams, and the list of
participants named in the partial-failure embed. -/
structure Session where
  participants : List String
  phase : SessionPhase
  interactive : Bool
  teams : Option (List Player × List Player)
  failedReport : List String
deriving Repr

/-- `BalanceSessionView.create_balanced_teams`: the view is detached first
(`message.edit(view=None)`), ELOs are fetched, and if any participant
failed the message is replaced by the partial-failure embed naming them —
the roster is not rolled back and no view is re-attached. On full success
the teams are computed; `none` models the uncaught `ValueError` path of
`balance_teams` (impossible when 10 participants all resolve). -/
def create_balanced_teams (env : ResolveEnv) (s : Session) : Option Session :=
  let pf := fetchPlayers env s.participants
  if pf.2 ≠ [] then
    some { s with interactive := false, phase := .sFailed, failedReport := pf.2 }
  else
    match balance_teams pf.1 with
    | some ab =>
      some { s with interactive := true, phase := .sBalanced,
                    teams := some ab, failedReport := [] }
    | none => none

/-- A persisted session snapshot, restricted to the fields the recovery
code consults (`guild_id`, `channel_id`, `message_id`, `created_at`);
`none` models an absent JSON key. -/
structure Snap where
  guildId : Option Nat
  channelId : Option Nat
  messageId : Option Nat
  createdAt : Nat
deriving DecidableEq, Repr

/-- The external world consulted by recovery: whether `fetch_message`
succeeds for a message id, and the current time used both for the fresh
session id and for the re-attached view's `created_at`. -/
structure RecoveryEnv where
  messageOk : Nat → Bool
  now : Nat

/-- The fresh session id built from guild id, channel id and the current
time, joined by underscores. -/
def newSessionId (g c t : Nat) : String :=
  toString g ++ "_" ++ toString c ++ "_" ++ toString t

/-- The scan in `auto_recover_session` that picks the most recent snapshot
for the interaction's guild/channel (strictly larger `created_at` wins, so
the first-encountered maximum is kept). -/
def mostRecentFor (store : List (String × Snap)) (g c : Nat) : Option Snap :=
  store.foldl
    (fun acc e =>
      if e.2.guildId = some g ∧ e.2.channelId = some c then
        match acc with
        | none => some e.2
        | some r => if r.createdAt < e.2.createdAt then some e.2 else some r
      else acc)
    none

/-- The snapshot-store effect of `BalanceSessionView.auto_recover_session`:
when a snapshot for the channel exists, a fresh view is created under a
new session id and `save_session()` writes it into `active_sessions` — in
every branch (message re-fetched, or the fallback message) the recovered
snapshot itself is never deleted. -/
def auto_recover_session (env : RecoveryEnv) (g c : Nat)
    (store : List (String × Snap)) : List (String × Snap) :=
  match mostRecentFor store g c with
  | none => store
  | some snap =>
    let nid := newSessionId g c env.now
    match snap.messageId with
    | some m =>
      if m ≠ 0 ∧ env.messageOk m then
        dictSet store nid
          { guildId := some g, channelId := some c,
            messageId := some m, createdAt := env.now }
      else
        dictSet store nid
          { guildId := some g, channelId := some c,
            messageId := none, createdAt := env.now }
    | none =>
      dictSet store nid
        { guildId := some g, channelId := some c,
          messageId := none, createdAt := env.now }

/-! ### Concrete sample data used by witnesses and counterexamples -/

/-- A ten-player roster with distinct ids; players `"c"` and `"d"` share
ELO 50. -/
def sampleRoster : List Player :=
  [⟨"a", "", 100⟩, ⟨"b", "", 60⟩, ⟨"c", "", 50⟩, ⟨"d", "", 50⟩,
   ⟨"e", "", 40⟩, ⟨"f", "", 30⟩, ⟨"g", "", 20⟩, ⟨"h", "", 10⟩,
   ⟨"i", "", 5⟩, ⟨"j", "", 1⟩]

/-- The team A computed by `balance_teams sampleRoster`. -/
def sampleTeamA : List Player :=
  [⟨"a", "", 100⟩, ⟨"d", "", 50⟩, ⟨"f", "", 30⟩, ⟨"i", "", 5⟩, ⟨"j", "", 1⟩]

/-- The team B computed by `balance_teams sampleRoster`. -/
def sampleTeamB : List Player :=
  [⟨"b", "", 60⟩, ⟨"c", "", 50⟩, ⟨"e", "", 40⟩, ⟨"g", "", 20⟩, ⟨"h", "", 10⟩]

/-- A ten-player roster with pairwise distinct ELOs. -/
def distinctRoster : List Player :=
  [⟨"a", "", 100⟩, ⟨"b", "", 90⟩, ⟨"c", "", 80⟩, ⟨"d", "", 70⟩,
   ⟨"e", "", 60⟩, ⟨"f", "", 50⟩, ⟨"g", "", 40⟩, ⟨"h", "", 30⟩,
   ⟨"i", "", 20⟩, ⟨"j", "", 10⟩]

/-- The team A computed by `balance_teams distinctRoster`. -/
def distinctTeamA : List Player :=
  [⟨"a", "", 100⟩, ⟨"d", "", 70⟩, ⟨"e", "", 60⟩, ⟨"h", "", 30⟩, ⟨"i", "", 20⟩]

/-- The team B computed by `balance_teams distinctRoster`. -/
def distinctTeamB : List Player :=
  [⟨"b", "", 90⟩, ⟨"c", "", 80⟩, ⟨"f", "", 50⟩, ⟨"g", "", 40⟩, ⟨"j", "", 10⟩]

/-- Two small teams with globally distinct ids, for the swap witnesses. -/
def wTeamA : List Player := [⟨"u", "", 7⟩, ⟨"v", "", 6⟩]

/-- Second team of the swap witnesses. -/
def wTeamB : List Player := [⟨"x", "", 5⟩, ⟨"y", "", 4⟩, ⟨"z", "", 3⟩]

/-- A resolution environment in which every lookup fails. -/
def envFail : ResolveEnv :=
  { faceitUsername := fun _ => none
    playerElo := fun _ => none
    memberName := fun _ => none }

/-- A session in the middle of its balancing transition. -/
def sessFail : Session :=
  { participants := ["a", "b"], phase := .sBalancing, interactive := true,
    teams := none, failedReport := [] }

/-- The session produced by running `create_balanced_teams` on `sessFail`
under `envFail`. -/
def sessFailRes : Session :=
  { participants := ["a", "b"], phase := .sFailed, interactive := false,
    teams := none, failedReport := ["a", "b"] }

/-- Whether the startup-recovery environment can also resolve guilds and
channels (`bot.get_guild`, `guild.get_channel`). -/
structure StartupEnv where
  guildOk : Nat → Bool
  channelOk : Nat → Nat → Bool
  messageOk : Nat → Bool
  now : Nat

/-- One iteration of `replace_old_sessions` in `bot.py`: skip the snapshot
when an id is missing/zero or the guild/channel cannot be resolved, delete
it when its message is gone, and on a successful re-attach save the new
session and then delete the old snapshot (`del active_sessions[session_id]`
follows `new_view.save_session()` in the source). -/
def replaceOne (env : StartupEnv) (store : List (String × Snap))
    (e : String × Snap) : List (String × Snap) :=
  match e.2.guildId, e.2.channelId, e.2.messageId with
  | some g, some c, some m =>
    if g = 0 ∨ c = 0 ∨ m = 0 then store
    else if ¬ env.guildOk g then store
    else if ¬ env.channelOk g c then store
    else if ¬ env.messageOk m then dictDel store e.1
    else
      dictDel
        (dictSet store (newSessionId g c env.now)
          { guildId := some g, channelId := some c,
            messageId := some m, createdAt := env.now })
        e.1
  | _, _, _ => store

/-- `replace_old_sessions`: each snapshot present at startup is processed
once (the Python code iterates over `active_sessions.items()`; the model
folds over the initial entries). -/
def replace_old_sessions (env : StartupEnv)
    (store : List (String × Snap)) : List (String × Snap) :=
  store.foldl (replaceOne env) store

/-- A store holding one recoverable snapshot. -/
def recStore : List (String × Snap) :=
  [("1_2_100", { guildId := some 1, channelId := some 2,
                 messageId := some 3, createdAt := 100 })]

/-- A recovery environment in which every message is still reachable. -/
def recEnv : RecoveryEnv := { messageOk := fun _ => true, now := 200 }

/-! ### Lemmas about the stable descending sort -/

theorem insertDesc_eq_append (x : Player) (s : List Player) :
    insertDesc x s =
      s.takeWhile (fun y => x.elo ≤ y.elo) ++
        x :: s.dropWhile (fun y => x.elo ≤ y.elo) := by
  induction s with
  | nil => rfl
  | cons y ys ih =>
    by_cases h : x.elo ≤ y.elo
    · simp [insertDesc, List.takeWhile_cons, List.dropWhile_cons, h, ih]
    · simp [insertDesc, List.takeWhile_cons, List.dropWhile_cons, h]

theorem insertDesc_perm (x : Player) (s : List Player) :
    (insertDesc x s).Perm (x :: s) := by
  rw [insertDesc_eq_append]
  exact List.perm_middle.trans (by
    rw [List.takeWhile_append_dropWhile])

theorem foldl_insertDesc_perm (l : List Player) :
    ∀ acc : List Player,
      (l.foldl (fun acc p => insertDesc p acc) acc).Perm (acc ++ l) := by
  induction l with
  | nil => intro acc; simp
  | cons p ps ih =>
    intro acc
    refine ((ih (insertDesc p acc)).trans ?_)
    refine (((insertDesc_perm p acc).append_right ps).trans ?_)
    exact List.perm_middle.symm

theorem sortedByEloDesc_perm (l : List Player) :
    (sortedByEloDesc l).Perm l := by
  simpa using foldl_insertDesc_perm l []

theorem insertDesc_pairwise {x : Player} {s : List Player}
    (hs : s.Pairwise (fun a b => b.elo ≤ a.elo)) :
    (insertDesc x s).Pairwise (fun a b => b.elo ≤ a.elo) := by
  induction s with
  | nil => simp [insertDesc]
  | cons y ys ih =>
    rw [List.pairwise_cons] at hs
    by_cases h : x.elo ≤ y.elo
    · rw [insertDesc, if_pos h, List.pairwise_cons]
      refine ⟨?_, ih hs.2⟩
      intro z hz
      rcases List.mem_cons.mp ((insertDesc_perm x ys).mem_iff.mp hz) with hz | hz
      · simpa [hz] using h
      · exact hs.1 z hz
    · rw [insertDesc, if_neg h, List.pairwise_cons]
      refine ⟨?_, List.pairwise_cons.mpr hs⟩
      intro z hz
      rcases List.mem_cons.mp hz with hz | hz
      · subst hz; omega
      · exact le_trans (hs.1 z hz) (by omega)

theorem sortedByEloDesc_pairwise (l : List Player) :
    (sortedByEloDesc l).Pairwise (fun a b => b.elo ≤ a.elo) := by
  have h : ∀ acc : List Player, acc.Pairwise (fun a b => b.elo ≤ a.elo) →
      (l.foldl (fun acc p => insertDesc p acc) acc).Pairwise
        (fun a b => b.elo ≤ a.elo) := by
    induction l with
    | nil => intro acc hacc; simpa using hacc
    | cons p ps ih => intro acc hacc; exact ih _ (insertDesc_pairwise hacc)
  simpa [sortedByEloDesc] using h [] (by simp)

theorem dropWhile_elo_lt {c : Nat} {s : List Player}
    (hs : s.Pairwise (fun a b => b.elo ≤ a.elo)) :
    ∀ p ∈ s.dropWhile (fun y => c ≤ y.elo), p.elo < c := by
  induction s with
  | nil => simp
  | cons y ys ih =>
    rw [List.pairwise_cons] at hs
    by_cases h : c ≤ y.elo
    · rw [List.dropWhile_cons_of_pos (by simpa using h)]
      exact ih hs.2
    · rw [List.dropWhile_cons_of_neg (by simpa using h)]
      intro p hp
      rcases List.mem_cons.mp hp with hp | hp
      · subst hp; omega
      · have := hs.1 p hp; omega

theorem filter_insertDesc {v : Nat} {x : Player} {s : List Player}
    (hs : s.Pairwise (fun a b => b.elo ≤ a.elo)) :
    (insertDesc x s).filter (fun p => p.elo = v) =
      if x.elo = v then s.filter (fun p => p.elo = v) ++ [x]
      else s.filter (fun p => p.elo = v) := by
  rw [insertDesc_eq_append, List.filter_append, List.filter_cons]
  by_cases hx : x.elo = v
  · have hdrop : (s.dropWhile (fun y => x.elo ≤ y.elo)).filter
        (fun p => p.elo = v) = [] := by
      rw [List.filter_eq_nil_iff]
      intro p hp
      have := dropWhile_elo_lt hs p hp
      simp only [decide_eq_true_eq]
      omega
    have hfs : s.filter (fun p => p.elo = v) =
        (s.takeWhile (fun y => x.elo ≤ y.elo)).filter (fun p => p.elo = v) := by
      conv_lhs => rw [← List.takeWhile_append_dropWhile
        (p := fun y => decide (x.elo ≤ y.elo)) (l := s)]
      rw [List.filter_append, hdrop, List.append_nil]
    rw [if_pos (by simpa using hx), if_pos hx, hdrop, hfs]
  · have hfs : s.filter (fun p => p.elo = v) =
        (s.takeWhile (fun y => x.elo ≤ y.elo)).filter (fun p => p.elo = v) ++
          (s.dropWhile (fun y => x.elo ≤ y.elo)).filter (fun p => p.elo = v) := by
      conv_lhs => rw [← List.takeWhile_append_dropWhile
        (p := fun y => decide (x.elo ≤ y.elo)) (l := s)]
      rw [List.filter_append]
    rw [if_neg (by simpa using hx), if_neg hx, hfs]

theorem filter_sortedByEloDesc (l : List Player) (v : Nat) :
    (sortedByEloDesc l).filter (fun p => p.elo = v) =
      l.filter (fun p => p.elo = v) := by
  have h : ∀ acc : List Player, acc.Pairwise (fun a b => b.elo ≤ a.elo) →
      (l.foldl (fun acc p => insertDesc p acc) acc).filter (fun p => p.elo = v) =
        acc.filter (fun p => p.elo = v) ++ l.filter (fun p => p.elo = v) := by
    induction l with
    | nil => intro acc hacc; simp
    | cons p ps ih =>
      intro acc hacc
      rw [List.foldl_cons, ih _ (insertDesc_pairwise hacc),
        filter_insertDesc hacc, List.filter_cons]
      by_cases hp : p.elo = v
      · rw [if_pos hp, if_pos (by simpa using hp)]
        simp
      · rw [if_neg hp, if_neg (by simpa using hp)]
  simpa [sortedByEloDesc] using h [] (by simp)

/-! ### Lemmas about the greedy assignment -/

/-- Invariant maintained by `teamStep`: team A never exceeds 5 players,
and team B only exceeds 5 players when team A is already full (which the
final count rules out). -/
def teamInv (ab : List Player × List Player) : Prop :=
  ab.1.length ≤ 5 ∧ (ab.2.length ≤ 5 ∨ ab.1.length = 5)

theorem teamStep_cases (ab : List Player × List Player) (p : Player) :
    teamStep ab p = (ab.1 ++ [p], ab.2) ∨ teamStep ab p = (ab.1, ab.2 ++ [p]) := by
  unfold teamStep
  split
  · exact Or.inl rfl
  · exact Or.inr rfl

theorem teamStep_inv {ab : List Player × List Player} (h : teamInv ab)
    (p : Player) : teamInv (teamStep ab p) := by
  obtain ⟨h1, h2⟩ := h
  unfold teamStep teamInv
  split
  · rename_i hc
    simp only [List.length_append, List.length_cons, List.length_nil]
    omega
  · rename_i hc
    rw [not_and_or, not_or, not_lt] at hc
    simp only [List.length_append, List.length_cons, List.length_nil]
    omega

theorem teamStep_total (ab : List Player × List Player) (p : Player) :
    (teamStep ab p).1.length + (teamStep ab p).2.length =
      ab.1.length + ab.2.length + 1 := by
  rcases teamStep_cases ab p with h | h <;> rw [h] <;> simp <;> omega

theorem foldl_teamStep_inv (l : List Player) :
    ∀ ab : List Player × List Player, teamInv ab →
      teamInv (l.foldl teamStep ab) ∧
      (l.foldl teamStep ab).1.length + (l.foldl teamStep ab).2.length =
        ab.1.length + ab.2.length + l.length := by
  induction l with
  | nil => intro ab h; exact ⟨h, by simp⟩
  | cons p ps ih =>
    intro ab h
    rw [List.foldl_cons]
    refine ⟨(ih _ (teamStep_inv h p)).1, ?_⟩
    rw [(ih _ (teamStep_inv h p)).2, teamStep_total]
    simp
    omega

theorem foldl_teamStep_perm (l : List Player) :
    ∀ ab : List Player × List Player,
      ((l.foldl teamStep ab).1 ++ (l.foldl teamStep ab).2).Perm
        ((ab.1 ++ ab.2) ++ l) := by
  induction l with
  | nil => intro ab; simp
  | cons p ps ih =>
    intro ab
    rw [List.foldl_cons]
    refine (ih (teamStep ab p)).trans ?_
    have hstep : ((teamStep ab p).1 ++ (teamStep ab p).2).Perm
        (p :: (ab.1 ++ ab.2)) := by
      rcases teamStep_cases ab p with h | h <;> rw [h]
      · simp [List.perm_middle]
      · rw [← List.append_assoc]
        exact List.perm_append_singleton p (ab.1 ++ ab.2)
    refine (hstep.append_right ps).trans ?_
    exact List.perm_middle.symm

/-- The structural facts shared by several claims: with a 10-player roster,
`balance_teams` succeeds and the two teams have 5 players each and are,
together, a permutation of the roster. -/
theorem balance_teams_split {players A B : List Player}
    (h10 : players.length = 10)
    (h : balance_teams players = some (A, B)) :
    A.length = 5 ∧ B.length = 5 ∧ (A ++ B).Perm players := by
  rw [balance_teams, if_pos h10] at h
  obtain rfl : ((sortedByEloDesc players).foldl teamStep ([], [])).1 = A := by
    rw [Option.some.injEq] at h; rw [h]
  obtain rfl : ((sortedByEloDesc players).foldl teamStep ([], [])).2 = B := by
    rw [Option.some.injEq] at h; rw [h]
  have hsortlen : (sortedByEloDesc players).length = 10 := by
    rw [(sortedByEloDesc_perm players).length_eq, h10]
  have hinv := foldl_teamStep_inv (sortedByEloDesc players) ([], [])
    (by constructor <;> simp)
  have hperm := foldl_teamStep_perm (sortedByEloDesc players) ([], [])
  obtain ⟨⟨hA, hAB⟩, htot⟩ := hinv
  simp only [List.length_nil, hsortlen] at htot
  refine ⟨by omega, by omega, ?_⟩
  simpa using hperm.trans (sortedByEloDesc_perm players)

/-! ### Claim C1 -/

/-- C1 counterexample: a roster of even size 2 with distinct ids is
rejected outright (`ValueError`, modelled as `none`), so `balance` does
not return two teams there — the claim fails for even sizes other than
10. -/
theorem c1_small_even_roster_rejected :
    balance_teams [⟨"a", "", 3⟩, ⟨"b", "", 1⟩] = none := by decide

/-- C1 (amended): for every roster of size `REQUIRED_PLAYERS = 10` with
distinct ids, `balance_teams` succeeds and returns two teams of 5 players
each whose concatenation is a permutation of the roster and whose id sets
are disjoint. -/
theorem c1_balance_valid_roster (players : List Player)
    (h10 : players.length = 10)
    (hids : (players.map Player.discord_id).Nodup) :
    (balance_teams players).isSome ∧
    ∀ A B, balance_teams players = some (A, B) →
      A.length = 5 ∧ B.length = 5 ∧ (A ++ B).Perm players ∧
      (A.map Player.discord_id).Disjoint (B.map Player.discord_id) := by
  constructor
  · rw [balance_teams, if_pos h10]; rfl
  · intro A B h
    obtain ⟨hA, hB, hperm⟩ := balance_teams_split h10 h
    refine ⟨hA, hB, hperm, ?_⟩
    have hmap : ((A ++ B).map Player.discord_id).Perm
        (players.map Player.discord_id) := hperm.map _
    have hnodup : ((A ++ B).map Player.discord_id).Nodup :=
      hmap.nodup_iff.mpr hids
    rw [List.map_append] at hnodup
    exact (List.nodup_append.mp hnodup).2.2

/-- C1 witness, at the concrete roster `sampleRoster`. -/
theorem c1_balance_valid_roster_witness :
    sampleTeamA.length = 5 ∧ sampleTeamB.length = 5 ∧
    (sampleTeamA ++ sampleTeamB).Perm sampleRoster ∧
    (sampleTeamA.map Player.discord_id).Disjoint
      (sampleTeamB.map Player.discord_id) :=
  (c1_balance_valid_roster sampleRoster (by decide) (by decide)).2
    sampleTeamA sampleTeamB (by decide)

/-! ### Claim C2 -/

theorem teamStep_eq_specAssign (ab : List Player × List Player) (p : Player) :
    teamStep ab p = specAssign ab p := by
  unfold teamStep specAssign
  split_ifs <;> first | rfl | (exfalso; omega)

theorem foldl_teamStep_eq_specAssign (l : List Player) :
    ∀ ab : List Player × List Player,
      l.foldl teamStep ab = l.foldl specAssign ab := by
  induction l with
  | nil => intro ab; rfl
  | cons p ps ih =>
    intro ab
    rw [List.foldl_cons, List.foldl_cons, teamStep_eq_specAssign, ih]

/-- C2: the sort used by `balance_teams` is exactly the stable descending
sort (it permutes the roster, is sorted by ELO descending, and preserves
the input order inside every equal-ELO class verbatim), and on a
10-player roster the greedy loop computes precisely the specification's
algorithm `specAssign` applied to that sorted order (lower-sum team, full
team skipped, forced to the team with capacity). -/
theorem c2_stable_sort_greedy (players : List Player) :
    (sortedByEloDesc players).Perm players ∧
    (sortedByEloDesc players).Pairwise (fun a b => b.elo ≤ a.elo) ∧
    (∀ v, (sortedByEloDesc players).filter (fun p => p.elo = v) =
        players.filter (fun p => p.elo = v)) ∧
    (players.length = 10 →
      balance_teams players =
        some ((sortedByEloDesc players).foldl specAssign ([], []))) := by
  refine ⟨sortedByEloDesc_perm players, sortedByEloDesc_pairwise players,
    fun v => filter_sortedByEloDesc players v, ?_⟩
  intro h10
  rw [balance_teams, if_pos h10, foldl_teamStep_eq_specAssign]

/-- C2 witness, at the concrete roster `sampleRoster`. -/
theorem c2_stable_sort_greedy_witness :
    balance_teams sampleRoster =
      some ((sortedByEloDesc sampleRoster).foldl specAssign ([], [])) :=
  (c2_stable_sort_greedy sampleRoster).2.2.2 (by decide)

/-! ### Claim C9 -/

theorem foldl_teamStep_headA (l : List Player) :
    ∀ a b : List Player, a ≠ [] →
      ((l.foldl teamStep (a, b)).1).head? = a.head? := by
  induction l with
  | nil => intro a b _; rfl
  | cons p ps ih =>
    intro a b ha
    rw [List.foldl_cons]
    rcases teamStep_cases (a, b) p with h | h <;> rw [h]
    · rw [ih (a ++ [p]) b (by simp)]
      cases a with
      | nil => exact absurd rfl ha
      | cons x xs => rfl
    · exact ih a (b ++ [p]) ha

/-- C9: when both teams still have capacity and their summed ratings are
equal (the initial empty state included) the greedy step assigns the
player to team A; consequently, on a valid roster, team A's first member
is the head of the descending-sorted roster — a participant of maximal
ELO. -/
theorem c9_tie_breaks_to_team_a :
    (∀ a b : List Player, ∀ p : Player, a.length < 5 → b.length < 5 →
      sumElo a = sumElo b → teamStep (a, b) p = (a ++ [p], b)) ∧
    (∀ players A B, players.length = 10 →
      balance_teams players = some (A, B) →
      A.head? = (sortedByEloDesc players).head? ∧
      ∀ q, A.head? = some q → q ∈ A ∧ ∀ p ∈ players, p.elo ≤ q.elo) := by
  constructor
  · intro a b p h1 _ h3
    unfold teamStep
    rw [if_pos ⟨h1, Or.inr (le_of_eq h3)⟩]
  · intro players A B h10 h
    rw [balance_teams, if_pos h10] at h
    have hlen : (sortedByEloDesc players).length = 10 := by
      rw [(sortedByEloDesc_perm players).length_eq, h10]
    obtain ⟨q0, rest, hqr⟩ :=
      List.exists_cons_of_ne_nil (l := sortedByEloDesc players)
        (by intro hnil; rw [hnil] at hlen; simp at hlen)
    have hpair := sortedByEloDesc_pairwise players
    rw [hqr] at h hpair ⊢
    rw [List.foldl_cons] at h
    have hstep : teamStep (([] : List Player), ([] : List Player)) q0 =
        ([q0], []) := rfl
    rw [hstep] at h
    have hA : A = (rest.foldl teamStep ([q0], [])).1 := by
      rw [Option.some.injEq] at h; rw [h]
    have hhead : A.head? = some q0 := by
      rw [hA, foldl_teamStep_headA rest [q0] [] (by simp)]; rfl
    refine ⟨by rw [hhead]; rfl, ?_⟩
    intro q hq
    rw [hhead, Option.some.injEq] at hq
    subst hq
    constructor
    · cases hA' : A with
      | nil => rw [hA'] at hhead; simp at hhead
      | cons x xs =>
        rw [hA'] at hhead
        simp only [List.head?_cons, Option.some.injEq] at hhead
        rw [← hhead]
        exact List.mem_cons_self x xs
    · intro p hp
      have hmem : p ∈ q0 :: rest := by
        have hmem' := (sortedByEloDesc_perm players).symm.mem_iff.mp hp
        rw [hqr] at hmem'
        exact hmem'
      rcases List.mem_cons.mp hmem with hp' | hp'
      · subst hp'; exact le_rfl
      · rw [List.pairwise_cons] at hpair
        exact hpair.1 p hp'

/-- C9 witness: the tie-break at the empty state, and the head of team A
for the concrete roster `sampleRoster`. -/
theorem c9_tie_breaks_to_team_a_witness :
    teamStep ([], []) ⟨"w", "", 7⟩ = ([⟨"w", "", 7⟩], []) ∧
    sampleTeamA.head? = (sortedByEloDesc sampleRoster).head? ∧
    (⟨"a", "", 100⟩ : Player) ∈ sampleTeamA ∧
    ∀ p ∈ sampleRoster, p.elo ≤ (100 : Nat) := by
  have h2 := (c9_tie_breaks_to_team_a.2 sampleRoster sampleTeamA sampleTeamB
    (by decide) (by decide))
  have h3 := h2.2 ⟨"a", "", 100⟩ (by decide)
  exact ⟨c9_tie_breaks_to_team_a.1 [] [] ⟨"w", "", 7⟩ (by decide) (by decide)
    rfl, h2.1, h3.1, h3.2⟩

/-! ### Claim C5 -/

theorem pairwise_strict_of_nodup_elo {s : List Player}
    (hs : s.Pairwise (fun a b => b.elo ≤ a.elo))
    (hn : (s.map Player.elo).Nodup) :
    s.Pairwise (fun a b => b.elo < a.elo) := by
  have hne : s.Pairwise (fun a b => a.elo ≠ b.elo) := List.pairwise_map.mp hn
  exact (hs.and hne).imp (fun h => by omega)

theorem strictSorted_eq_of_perm {l₁ l₂ : List Player}
    (hp : l₁.Perm l₂)
    (h₁ : l₁.Pairwise (fun a b => b.elo < a.elo))
    (h₂ : l₂.Pairwise (fun a b => b.elo < a.elo)) : l₁ = l₂ := by
  letI : IsAntisymm Player (fun a b => b.elo < a.elo) :=
    ⟨fun a b hab hba => absurd hba (Nat.lt_asymm hab)⟩
  exact List.eq_of_perm_of_sorted hp h₁ h₂

/-- C5 counterexample: on `sampleRoster` (two players share ELO 50),
re-balancing the concatenated teams produces a different split from the
original `balance` output — the equal-rated players `"c"` and `"d"`
trade teams — so `rebalance (balance roster)` is not the identical
split. -/
theorem c5_counterexample :
    (balance_teams sampleRoster).bind (fun ab => balance_teams (ab.1 ++ ab.2)) ≠
      balance_teams sampleRoster := by decide

/-- C5 (amended): on a valid roster whose ratings are pairwise distinct,
rebalancing the split produced by `balance_teams` reproduces the identical
split. -/
theorem c5_rebalance_distinct_elos (players : List Player)
    (h10 : players.length = 10)
    (helo : (players.map Player.elo).Nodup) :
    ∀ A B, balance_teams players = some (A, B) →
      balance_teams (A ++ B) = some (A, B) := by
  intro A B h
  obtain ⟨hA, hB, hperm⟩ := balance_teams_split h10 h
  have hlen : (A ++ B).length = 10 := by
    rw [List.length_append, hA, hB]
  have hnAB : ((sortedByEloDesc (A ++ B)).map Player.elo).Nodup := by
    have hp : ((sortedByEloDesc (A ++ B)).map Player.elo).Perm
        (players.map Player.elo) :=
      ((sortedByEloDesc_perm (A ++ B)).trans hperm).map Player.elo
    exact hp.nodup_iff.mpr helo
  have hnP : ((sortedByEloDesc players).map Player.elo).Nodup :=
    (((sortedByEloDesc_perm players).map Player.elo).nodup_iff).mpr helo
  have hsorteq : sortedByEloDesc (A ++ B) = sortedByEloDesc players := by
    apply strictSorted_eq_of_perm
    · exact (sortedByEloDesc_perm (A ++ B)).trans
        (hperm.trans (sortedByEloDesc_perm players).symm)
    · exact pairwise_strict_of_nodup_elo (sortedByEloDesc_pairwise _) hnAB
    · exact pairwise_strict_of_nodup_elo (sortedByEloDesc_pairwise _) hnP
  rw [balance_teams, if_pos hlen, hsorteq]
  rw [balance_teams, if_pos h10] at h
  exact h

/-- C5 witness, at the distinct-ELO roster `distinctRoster`. -/
theorem c5_rebalance_distinct_elos_witness :
    balance_teams (distinctTeamA ++ distinctTeamB) =
      some (distinctTeamA, distinctTeamB) :=
  c5_rebalance_distinct_elos distinctRoster (by decide) (by decide)
    distinctTeamA distinctTeamB (by decide)

/-! ### Lemmas about the player lookup and `swap_players` -/

theorem findPlayer_spec {t : List Player} {pid : String} :
    ∀ {i : Nat} {p : Player}, findPlayer t pid = some (i, p) →
      i < t.length ∧ t[i]? = some p ∧ p.discord_id = pid := by
  induction t with
  | nil => intro i p h; simp [findPlayer] at h
  | cons x xs ih =>
    intro i p h
    rw [findPlayer] at h
    by_cases hx : x.discord_id = pid
    · rw [if_pos hx] at h
      have h' := Option.some.inj h
      rw [Prod.mk.injEq] at h'
      obtain ⟨h1, h2⟩ := h'
      subst h1; subst h2
      simp [hx]
    · rw [if_neg hx] at h
      obtain ⟨⟨j, q⟩, hfind, heq⟩ := Option.map_eq_some'.mp h
      rw [Prod.mk.injEq] at heq
      obtain ⟨h1, h2⟩ := heq
      subst h1; subst h2
      obtain ⟨ha, hb, hc⟩ := ih hfind
      refine ⟨?_, by simpa using hb, hc⟩
      simp only [List.length_cons]
      omega

theorem findPlayer_isSome_iff (t : List Player) (pid : String) :
    (findPlayer t pid).isSome ↔ pid ∈ t.map Player.discord_id := by
  induction t with
  | nil => simp [findPlayer]
  | cons x xs ih =>
    rw [findPlayer]
    by_cases hx : x.discord_id = pid
    · simp [hx]
    · rw [if_neg hx]
      simp only [List.map_cons, List.mem_cons]
      rw [Option.isSome_map']
      rw [ih]
      constructor
      · exact Or.inr
      · rintro (h | h)
        · exact absurd h.symm hx
        · exact h

theorem findPlayer_set {t : List Player} {pid : String} {i : Nat} {q : Player}
    (habs : pid ∉ t.map Player.discord_id)
    (hi : i < t.length) (hq : q.discord_id = pid) :
    findPlayer (t.set i q) pid = some (i, q) := by
  induction t generalizing i with
  | nil => simp at hi
  | cons x xs ih =>
    simp only [List.map_cons, List.mem_cons, not_or] at habs
    cases i with
    | zero =>
      rw [List.set_cons_zero, findPlayer, if_pos hq]
    | succ j =>
      rw [List.set_cons_succ, findPlayer, if_neg (fun hx => habs.1 hx.symm)]
      rw [ih habs.2 (by simpa using hi)]
      rfl

theorem set_self_of_getElem? {t : List Player} {i : Nat} {p : Player}
    (h : t[i]? = some p) : t.set i p = t := by
  induction t generalizing i with
  | nil => simp at h
  | cons x xs ih =>
    cases i with
    | zero =>
      simp only [List.getElem?_cons_zero, Option.some.injEq] at h
      rw [List.set_cons_zero, h]
    | succ j =>
      simp only [List.getElem?_cons_succ] at h
      rw [List.set_cons_succ, ih h]

theorem set_append_perm {t : List Player} {i : Nat} {p : Player}
    (h : t[i]? = some p) (x : Player) :
    ((t.set i x) ++ [p]).Perm (t ++ [x]) := by
  induction t generalizing i with
  | nil => simp at h
  | cons y ys ih =>
    cases i with
    | zero =>
      simp only [List.getElem?_cons_zero, Option.some.injEq] at h
      rw [← h, List.set_cons_zero]
      show ((x :: ys) ++ [y]).Perm ((y :: ys) ++ [x])
      have s1 : ((x :: ys) ++ [y]).Perm (x :: y :: ys) :=
        (List.perm_append_singleton y ys).cons x
      have s2 : (x :: y :: ys).Perm (y :: x :: ys) := List.Perm.swap y x ys
      have s3 : (y :: x :: ys).Perm ((y :: ys) ++ [x]) :=
        ((List.perm_append_singleton x ys).symm.cons y)
      exact (s1.trans s2).trans s3
    | succ j =>
      simp only [List.getElem?_cons_succ] at h
      rw [List.set_cons_succ]
      show ((y :: ys.set j x) ++ [p]).Perm ((y :: ys) ++ [x])
      exact (ih h).cons y

/-! ### Claim C6 -/

/-- C6: when `idA` is a member of `teamA` and `idB` a member of `teamB`,
`swap_players` succeeds, and its result exchanges the two found players at
their respective positions: both lengths are unchanged, the position of
`idA` in team A now holds `idB`'s player and vice versa, and every other
position of either team is untouched. (The embedding is a pure function,
so the inputs are unchanged by construction, matching `team_a.copy()` in
the source.) -/
theorem c6_swap_exchanges_positions (tA tB : List Player) (a b : String)
    (ha : a ∈ tA.map Player.discord_id) (hb : b ∈ tB.map Player.discord_id) :
    (swap_players tA tB a b).isSome ∧
    ∀ i pa j pb, findPlayer tA a = some (i, pa) →
      findPlayer tB b = some (j, pb) →
      swap_players tA tB a b = some (tA.set i pb, tB.set j pa) ∧
      (tA.set i pb).length = tA.length ∧
      (tB.set j pa).length = tB.length ∧
      (tA.set i pb)[i]? = some pb ∧
      (tB.set j pa)[j]? = some pa ∧
      (∀ k, k ≠ i → (tA.set i pb)[k]? = tA[k]?) ∧
      (∀ k, k ≠ j → (tB.set j pa)[k]? = tB[k]?) := by
  constructor
  · obtain ⟨ia, hia⟩ := Option.isSome_iff_exists.mp
      ((findPlayer_isSome_iff tA a).mpr ha)
    obtain ⟨ib, hib⟩ := Option.isSome_iff_exists.mp
      ((findPlayer_isSome_iff tB b).mpr hb)
    rw [swap_players, hia, hib]
    rfl
  · intro i pa j pb hia hib
    obtain ⟨hilt, higet, _⟩ := findPlayer_spec hia
    obtain ⟨hjlt, hjget, _⟩ := findPlayer_spec hib
    refine ⟨by rw [swap_players, hia, hib], by simp, by simp, ?_, ?_, ?_, ?_⟩
    · rw [List.getElem?_set_self (by simpa using hilt)]
    · rw [List.getElem?_set_self (by simpa using hjlt)]
    · intro k hk
      exact List.getElem?_set_ne (fun he => hk he.symm)
    · intro k hk
      exact List.getElem?_set_ne (fun he => hk he.symm)

/-- C6 witness, swapping `"v"` and `"y"` between the concrete teams
`wTeamA` and `wTeamB`. -/
theorem c6_swap_exchanges_positions_witness :
    swap_players wTeamA wTeamB "v" "y" =
      some (wTeamA.set 1 ⟨"y", "", 4⟩, wTeamB.set 1 ⟨"v", "", 6⟩) ∧
    (wTeamA.set 1 (⟨"y", "", 4⟩ : Player)).length = wTeamA.length ∧
    (wTeamB.set 1 (⟨"v", "", 6⟩ : Player)).length = wTeamB.length ∧
    (wTeamA.set 1 (⟨"y", "", 4⟩ : Player))[1]? = some ⟨"y", "", 4⟩ ∧
    (wTeamB.set 1 (⟨"v", "", 6⟩ : Player))[1]? = some ⟨"v", "", 6⟩ ∧
    (wTeamA.set 1 (⟨"y", "", 4⟩ : Player))[0]? = wTeamA[0]? ∧
    (wTeamB.set 1 (⟨"v", "", 6⟩ : Player))[2]? = wTeamB[2]? := by
  have h := (c6_swap_exchanges_positions wTeamA wTeamB "v" "y"
    (by decide) (by decide)).2 1 ⟨"v", "", 6⟩ 1 ⟨"y", "", 4⟩
    (by decide) (by decide)
  exact ⟨h.1, h.2.1, h.2.2.1, h.2.2.2.1, h.2.2.2.2.1,
    h.2.2.2.2.2.1 0 (by decide), h.2.2.2.2.2.2 2 (by decide)⟩

/-! ### Claim C7 -/

/-- C7 counterexample: when the id being looked up also occurs in the
*other* team, the swap-back lookup finds the wrong occurrence first and
the round trip does not restore the original assignment. Here team A is
`[p]` and team B is `[p, q]` (the id `"p"` occurs in both teams):
swapping `"p"`/`"q"` and then `"q"`/`"p"` back yields
`([p₂], [q, p₁])`, not the original `([p₁], [p₂, q])`. -/
theorem c7_counterexample :
    ((swap_players [⟨"p", "", 1⟩] [⟨"p", "", 2⟩, ⟨"q", "", 3⟩] "p" "q").bind
        (fun ab => swap_players ab.1 ab.2 "q" "p")) ≠
      some ([⟨"p", "", 1⟩], [⟨"p", "", 2⟩, ⟨"q", "", 3⟩]) := by decide

/-- C7 (amended): when `idA` is a member of `teamA`, `idB` a member of
`teamB`, and neither id also occurs in the opposite team, the swap
succeeds, swapping the same two ids back restores both teams exactly, and
each swap preserves the multiset of participants across both teams. -/
theorem c7_swap_round_trip (tA tB : List Player) (a b : String)
    (ha : a ∈ tA.map Player.discord_id) (hb : b ∈ tB.map Player.discord_id)
    (hba : b ∉ tA.map Player.discord_id) (hab : a ∉ tB.map Player.discord_id) :
    (swap_players tA tB a b).isSome ∧
    ∀ A' B', swap_players tA tB a b = some (A', B') →
      swap_players A' B' b a = some (tA, tB) ∧
      (A' ++ B').Perm (tA ++ tB) := by
  refine ⟨(c6_swap_exchanges_positions tA tB a b ha hb).1, ?_⟩
  intro A' B' h
  obtain ⟨⟨i, pa⟩, hia⟩ := Option.isSome_iff_exists.mp
    ((findPlayer_isSome_iff tA a).mpr ha)
  obtain ⟨⟨j, pb⟩, hib⟩ := Option.isSome_iff_exists.mp
    ((findPlayer_isSome_iff tB b).mpr hb)
  obtain ⟨hilt, higet, hapid⟩ := findPlayer_spec hia
  obtain ⟨hjlt, hjget, hbpid⟩ := findPlayer_spec hib
  rw [swap_players, hia, hib, Option.some.injEq, Prod.mk.injEq] at h
  obtain ⟨h1, h2⟩ := h
  have hA' : A' = tA.set i pb := h1.symm
  have hB' : B' = tB.set j pa := h2.symm
  constructor
  · have hfb : findPlayer A' b = some (i, pb) := by
      rw [hA']; exact findPlayer_set hba hilt hbpid
    have hfa : findPlayer B' a = some (j, pa) := by
      rw [hB']; exact findPlayer_set hab hjlt hapid
    rw [swap_players, hfb, hfa, Option.some.injEq]
    rw [hA', hB', List.set_set, List.set_set,
      set_self_of_getElem? higet, set_self_of_getElem? hjget]
  · have p1 : ((tA.set i pb) ++ [pa]).Perm (tA ++ [pb]) :=
      set_append_perm higet pb
    have p2 : ((tB.set j pa) ++ [pb]).Perm (tB ++ [pa]) :=
      set_append_perm hjget pa
    have hmult : ((A' ++ B') : Multiset Player) = ((tA ++ tB) : Multiset Player) := by
      have m1 : ((tA.set i pb) : Multiset Player) + {pa} = (tA : Multiset Player) + {pb} := by
        have := Multiset.coe_eq_coe.mpr p1
        simpa [← Multiset.coe_add] using this
      have m2 : ((tB.set j pa) : Multiset Player) + {pb} = (tB : Multiset Player) + {pa} := by
        have := Multiset.coe_eq_coe.mpr p2
        simpa [← Multiset.coe_add] using this
      have hsum : ((tA.set i pb) : Multiset Player) + ((tB.set j pa) : Multiset Player)
          + ({pa} + {pb}) = (tA : Multiset Player) + (tB : Multiset Player)
          + ({pa} + {pb}) := by
        calc ((tA.set i pb) : Multiset Player) + ((tB.set j pa) : Multiset Player)
            + ({pa} + {pb})
            = (((tA.set i pb) : Multiset Player) + {pa})
              + (((tB.set j pa) : Multiset Player) + {pb}) := by abel
          _ = ((tA : Multiset Player) + {pb}) + ((tB : Multiset Player) + {pa}) := by
              rw [m1, m2]
          _ = (tA : Multiset Player) + (tB : Multiset Player) + ({pa} + {pb}) := by abel
      have hcore := add_right_cancel hsum
      rw [hA', hB']
      simpa [← Multiset.coe_add] using hcore
    exact Multiset.coe_eq_coe.mp (by simpa [← Multiset.coe_add] using hmult)

/-- C7 witness, swapping `"u"` and `"x"` between the concrete teams
`wTeamA` and `wTeamB` and back. -/
theorem c7_swap_round_trip_witness :
    swap_players (wTeamA.set 0 ⟨"x", "", 5⟩) (wTeamB.set 0 ⟨"u", "", 7⟩)
        "x" "u" = some (wTeamA, wTeamB) ∧
    ((wTeamA.set 0 (⟨"x", "", 5⟩ : Player)) ++
        (wTeamB.set 0 (⟨"u", "", 7⟩ : Player))).Perm (wTeamA ++ wTeamB) := by
  have h := (c7_swap_round_trip wTeamA wTeamB "u" "x"
    (by decide) (by decide) (by decide) (by decide)).2
    (wTeamA.set 0 ⟨"x", "", 5⟩) (wTeamB.set 0 ⟨"u", "", 7⟩) (by decide)
  exact h

/-! ### Claim C8 -/

/-- C8: `swap_players` fails (raises `PlayerNotFound`, modelled as `none`)
exactly when `idA` is not among team A's ids or `idB` is not among team
B's ids — the lookups are team-scoped, so an id present only in the other
team still fails. -/
theorem c8_swap_fails_iff_absent (tA tB : List Player) (a b : String) :
    swap_players tA tB a b = none ↔
      (a ∉ tA.map Player.discord_id ∨ b ∉ tB.map Player.discord_id) := by
  rw [swap_players]
  constructor
  · intro h
    by_contra hcon
    rw [not_or, not_not, not_not] at hcon
    obtain ⟨⟨i, pa⟩, hia⟩ := Option.isSome_iff_exists.mp
      ((findPlayer_isSome_iff tA a).mpr hcon.1)
    obtain ⟨⟨j, pb⟩, hib⟩ := Option.isSome_iff_exists.mp
      ((findPlayer_isSome_iff tB b).mpr hcon.2)
    rw [hia, hib] at h
    simp at h
  · intro h
    rcases h with h | h
    · have : findPlayer tA a = none := by
        cases hfa : findPlayer tA a with
        | none => rfl
        | some ia =>
          exact absurd ((findPlayer_isSome_iff tA a).mp (by rw [hfa]; rfl)) h
      rw [this]
    · have hnb : findPlayer tB b = none := by
        cases hfb : findPlayer tB b with
        | none => rfl
        | some ib =>
          exact absurd ((findPlayer_isSome_iff tB b).mp (by rw [hfb]; rfl)) h
      rw [hnb]
      cases findPlayer tA a <;> rfl

/-! ### Claim C3 -/

theorem fetchStep_snd (env : ResolveEnv) (acc : List Player × List String)
    (d : String) :
    (fetchStep env acc d).2 =
      if resolveFailed env d then acc.2 ++ [d] else acc.2 := by
  unfold fetchStep resolveFailed
  cases hu : env.faceitUsername d with
  | none => simp
  | some u =>
    cases he : env.playerElo u with
    | none => simp [he]
    | some e => simp [he]

theorem fetchPlayers_failed (env : ResolveEnv) (l : List String) :
    ∀ acc : List Player × List String,
      (l.foldl (fetchStep env) acc).2 = acc.2 ++ l.filter (resolveFailed env) := by
  induction l with
  | nil => intro acc; simp
  | cons d ds ih =>
    intro acc
    rw [List.foldl_cons, ih, fetchStep_snd, List.filter_cons]
    by_cases hd : resolveFailed env d = true
    · rw [if_pos hd, if_pos hd, List.append_assoc]
      rfl
    · rw [if_neg (by simpa using hd), if_neg (by simpa using hd)]

/-- C3: if any participant's rating cannot be resolved during the
balancing transition, `create_balanced_teams` does not restore the Open
phase and performs no roster rollback: the roster, the previously computed
teams and the rest of the session are untouched, the message is left with
no interactive view, and the surfaced failure report names exactly the
participants whose resolution failed. -/
theorem c3_partial_failure (env : ResolveEnv) (s : Session)
    (hfail : ∃ d ∈ s.participants, resolveFailed env d = true) :
    (create_balanced_teams env s).isSome ∧
    ∀ s', create_balanced_teams env s = some s' →
      s'.phase = .sFailed ∧ s'.phase ≠ .sOpen ∧
      s'.participants = s.participants ∧
      s'.interactive = false ∧
      s'.teams = s.teams ∧
      s'.failedReport = s.participants.filter (resolveFailed env) ∧
      ∀ d, d ∈ s'.failedReport ↔
        (d ∈ s.participants ∧ resolveFailed env d = true) := by
  obtain ⟨d0, hd0mem, hd0⟩ := hfail
  have hfe : (fetchPlayers env s.participants).2 =
      s.participants.filter (resolveFailed env) := by
    show ((s.participants).foldl (fetchStep env) ([], [])).2 = _
    rw [fetchPlayers_failed env s.participants ([], [])]
    rfl
  have hne : (fetchPlayers env s.participants).2 ≠ [] := by
    rw [hfe]
    intro hnil
    have hmem : d0 ∈ s.participants.filter (resolveFailed env) :=
      List.mem_filter.mpr ⟨hd0mem, hd0⟩
    rw [hnil] at hmem
    simp at hmem
  constructor
  · simp only [create_balanced_teams]
    rw [if_pos hne]
    rfl
  · intro s' h
    simp only [create_balanced_teams] at h
    rw [if_pos hne, Option.some.injEq] at h
    subst h
    refine ⟨rfl, by intro hcon; exact SessionPhase.noConfusion hcon,
      rfl, rfl, rfl, hfe, ?_⟩
    intro d
    show d ∈ (fetchPlayers env s.participants).2 ↔ _
    rw [hfe]
    exact List.mem_filter

/-- C3 witness: both participants of `sessFail` fail to resolve under
`envFail`, and the resulting session keeps the roster, loses its view, and
reports both participants. -/
theorem c3_partial_failure_witness :
    sessFailRes.phase = .sFailed ∧ sessFailRes.phase ≠ .sOpen ∧
    sessFailRes.participants = sessFail.participants ∧
    sessFailRes.interactive = false ∧
    sessFailRes.teams = sessFail.teams ∧
    sessFailRes.failedReport =
      sessFail.participants.filter (resolveFailed envFail) ∧
    ("a" ∈ sessFailRes.failedReport ↔
      ("a" ∈ sessFail.participants ∧ resolveFailed envFail "a" = true)) := by
  have h := (c3_partial_failure envFail sessFail ⟨"a", by decide, rfl⟩).2
    sessFailRes rfl
  exact ⟨h.1, h.2.1, h.2.2.1, h.2.2.2.1, h.2.2.2.2.1, h.2.2.2.2.2.1,
    h.2.2.2.2.2.2 "a"⟩

/-! ### Claim C10 -/

theorem dictGet_dictSet_self {α : Type} (d : List (String × α)) (k : String)
    (v : α) : dictGet (dictSet d k v) k = some v := by
  unfold dictSet
  by_cases hany : d.any (fun e => e.1 = k) = true
  · rw [if_pos hany]
    unfold dictGet
    induction d with
    | nil => simp at hany
    | cons e es ih =>
      by_cases he : e.1 = k
      · rw [List.map_cons, if_pos he,
          List.find?_cons_of_pos _ (by simp)]
        rfl
      · rw [List.map_cons, if_neg he,
          List.find?_cons_of_neg _ (by simpa using he)]
        apply ih
        simpa [he] using hany
  · rw [if_neg hany]
    unfold dictGet
    have hnone : d.find? (fun e => e.1 = k) = none := by
      rw [List.find?_eq_none]
      intro a ha hp
      exact hany (List.any_eq_true.mpr ⟨a, ha, hp⟩)
    rw [List.find?_append, hnone]
    simp

theorem dictGet_dictDel_self {α : Type} (d : List (String × α)) (k : String) :
    dictGet (dictDel d k) k = none := by
  unfold dictGet dictDel
  have hnone : (d.filter (fun e => ¬ e.1 = k)).find? (fun e => e.1 = k) =
      none := by
    rw [List.find?_eq_none]
    intro a ha hp
    have := List.of_mem_filter ha
    simp only [decide_eq_true_eq] at this hp
    exact this hp
  rw [hnone]
  rfl

theorem dictGet_dictDel_ne {α : Type} (d : List (String × α)) {u v : String}
    (hne : v ≠ u) : dictGet (dictDel d u) v = dictGet d v := by
  unfold dictGet dictDel
  induction d with
  | nil => rfl
  | cons e es ih =>
    by_cases hu : e.1 = u
    · rw [List.filter_cons_of_neg (by simpa using hu),
        List.find?_cons_of_neg _ (by simp [hu, hne.symm])]
      exact ih
    · rw [List.filter_cons_of_pos (by simpa using hu)]
      by_cases hv : e.1 = v
      · rw [List.find?_cons_of_pos _ (by simpa using hv),
          List.find?_cons_of_pos _ (by simpa using hv)]
      · rw [List.find?_cons_of_neg _ (by simpa using hv),
          List.find?_cons_of_neg _ (by simpa using hv)]
        exact ih

/-- C10: linking stores the handle (the newest link wins on lookup),
`unlink_user` reports `True` exactly when the user was linked, after
unlinking the lookup yields `None`, and the links of every other user are
untouched by an unlink. -/
theorem c10_identity_store (data : List (String × UserRecord))
    (u handle ts : String) :
    get_faceit_username (link_user data u handle ts) u = some handle ∧
    ((unlink_user data u).1 = true ↔ get_faceit_username data u ≠ none) ∧
    get_faceit_username (unlink_user data u).2 u = none ∧
    ∀ v, v ≠ u →
      get_faceit_username (unlink_user data u).2 v =
        get_faceit_username data v := by
  refine ⟨?_, ?_, ?_, ?_⟩
  · rw [get_faceit_username, link_user, dictGet_dictSet_self]
    rfl
  · rw [unlink_user, get_faceit_username]
    by_cases hs : (dictGet data u).isSome
    · rw [if_pos hs]
      obtain ⟨r, hr⟩ := Option.isSome_iff_exists.mp hs
      rw [hr]
      simp
    · rw [if_neg hs]
      rw [Option.not_isSome_iff_eq_none] at hs
      rw [hs]
      simp
  · rw [unlink_user, get_faceit_username]
    by_cases hs : (dictGet data u).isSome
    · rw [if_pos hs]
      show (dictGet (dictDel data u) u).map UserRecord.faceit_username = none
      rw [dictGet_dictDel_self]
      rfl
    · rw [if_neg hs]
      rw [Option.not_isSome_iff_eq_none] at hs
      show (dictGet data u).map UserRecord.faceit_username = none
      rw [hs]
      rfl
  · intro v hv
    rw [unlink_user, get_faceit_username, get_faceit_username]
    by_cases hs : (dictGet data u).isSome
    · rw [if_pos hs]
      show (dictGet (dictDel data u) v).map UserRecord.faceit_username = _
      rw [dictGet_dictDel_ne data hv]
    · rw [if_neg hs]

/-- C10 witness, at a concrete one-user store. -/
theorem c10_identity_store_witness :
    get_faceit_username (link_user [] "1" "alice" "t0") "1" = some "alice" ∧
    ((unlink_user (link_user [] "1" "alice" "t0") "1").1 = true ↔
      get_faceit_username (link_user [] "1" "alice" "t0") "1" ≠ none) ∧
    get_faceit_username (unlink_user (link_user [] "1" "alice" "t0") "1").2
      "1" = none ∧
    get_faceit_username (unlink_user (link_user [] "1" "alice" "t0") "1").2
      "2" = get_faceit_username (link_user [] "1" "alice" "t0") "2" := by
  have h1 := c10_identity_store [] "1" "alice" "t0"
  have h2 := c10_identity_store (link_user [] "1" "alice" "t0") "1" "x" "tx"
  exact ⟨h1.1, h2.2.1, h2.2.2.1, h2.2.2.2 "2" (by decide)⟩

/-! ### Claim C4 -/

theorem length_dictSet_le {α : Type} (d : List (String × α)) (k : String)
    (v : α) : (dictSet d k v).length ≤ d.length + 1 := by
  unfold dictSet
  split
  · rw [List.length_map]
    omega
  · rw [List.length_append]
    simp

theorem mem_keys_dictSet {α : Type} (d : List (String × α)) (k : String)
    (v : α) {x : String} (hx : x ∈ d.map Prod.fst) :
    x ∈ (dictSet d k v).map Prod.fst := by
  unfold dictSet
  split
  · rw [List.map_map]
    have hcong : d.map (Prod.fst ∘ fun e => if e.1 = k then (k, v) else e) =
        d.map Prod.fst := by
      apply List.map_congr_left
      intro e _
      by_cases he : e.1 = k
      · simp [he]
      · simp [he]
    rw [hcong]
    exact hx
  · rw [List.map_append]
    exact List.mem_append_left _ hx

theorem mem_keys_dictDel {α : Type} {d : List (String × α)} {x k : String}
    (hx : x ∈ d.map Prod.fst) (hne : x ≠ k) :
    x ∈ (dictDel d k).map Prod.fst := by
  obtain ⟨e, he, hex⟩ := List.mem_map.mp hx
  refine List.mem_map.mpr ⟨e, ?_, hex⟩
  refine List.mem_filter.mpr ⟨he, ?_⟩
  simp only [decide_eq_true_eq]
  intro hek
  exact hne (by rw [← hex, hek])

theorem length_dictDel_lt {α : Type} (d : List (String × α)) {k : String}
    (hk : k ∈ d.map Prod.fst) : (dictDel d k).length < d.length := by
  obtain ⟨e, he, hek⟩ := List.mem_map.mp hk
  unfold dictDel
  apply List.length_filter_lt_length_iff_exists.mpr
  exact ⟨e, he, by simp [hek]⟩

theorem dictDel_dictSet_length_le {α : Type} (store : List (String × α))
    (k : String) (v : α) {x : String} (hx : x ∈ store.map Prod.fst) :
    (dictDel (dictSet store k v) x).length ≤ store.length := by
  have h1 := length_dictDel_lt (dictSet store k v) (mem_keys_dictSet store k v hx)
  have h2 := length_dictSet_le store k v
  omega

theorem replaceOne_length_le (env : StartupEnv)
    (store : List (String × Snap)) (e : String × Snap)
    (he : e.1 ∈ store.map Prod.fst) :
    (replaceOne env store e).length ≤ store.length := by
  unfold replaceOne
  split
  · split
    · exact le_refl _
    · split
      · exact le_refl _
      · split
        · exact le_refl _
        · split
          · exact le_of_lt (length_dictDel_lt store he)
          · exact dictDel_dictSet_length_le store _ _ he
  · exact le_refl _

theorem mem_keys_replaceOne (env : StartupEnv)
    (store : List (String × Snap)) (e : String × Snap) {x : String}
    (hx : x ∈ store.map Prod.fst) (hne : x ≠ e.1) :
    x ∈ (replaceOne env store e).map Prod.fst := by
  unfold replaceOne
  split
  · split
    · exact hx
    · split
      · exact hx
      · split
        · exact hx
        · split
          · exact mem_keys_dictDel hx hne
          · exact mem_keys_dictDel (mem_keys_dictSet _ _ _ hx) hne
  · exact hx

theorem foldl_replaceOne_length_le (env : StartupEnv)
    (l : List (String × Snap)) :
    ∀ store : List (String × Snap),
      (∀ e ∈ l, e.1 ∈ store.map Prod.fst) → ((l.map Prod.fst).Nodup) →
      (l.foldl (replaceOne env) store).length ≤ store.length := by
  induction l with
  | nil => intro store _ _; exact le_refl _
  | cons e es ih =>
    intro store hmem hnd
    rw [List.map_cons, List.nodup_cons] at hnd
    rw [List.foldl_cons]
    have h1 : (replaceOne env store e).length ≤ store.length :=
      replaceOne_length_le env store e (hmem e (List.mem_cons_self e es))
    have h2 : ∀ e' ∈ es, e'.1 ∈ (replaceOne env store e).map Prod.fst := by
      intro e' he'
      refine mem_keys_replaceOne env store e
        (hmem e' (List.mem_cons_of_mem e he')) ?_
      intro hkey
      exact hnd.1 (hkey ▸ List.mem_map_of_mem Prod.fst he')
    exact le_trans (ih _ h2 hnd.2) h1

/-- Supporting fact for the recovery analysis: the *startup* recovery pass
`replace_old_sessions` never grows the snapshot store — every processed
snapshot is either kept, deleted, or replaced (new snapshot saved, old one
deleted immediately afterwards), so with distinct session ids the count is
non-increasing. The `/recover` command follows the same
save-then-delete pattern. -/
theorem replace_old_sessions_length_le (env : StartupEnv)
    (store : List (String × Snap))
    (hnd : (store.map Prod.fst).Nodup) :
    (replace_old_sessions env store).length ≤ store.length := by
  unfold replace_old_sessions
  exact foldl_replaceOne_length_le env store store
    (fun e he => List.mem_map_of_mem Prod.fst he) hnd

/-- C4 is refuted on the auto-recovery path: on a store holding one
recoverable snapshot whose message is still reachable,
`auto_recover_session` re-attaches the session under a fresh id but never
deletes the recovered snapshot — the store grows from one snapshot to two
and the old snapshot is still present under its old key — so this
recovery pass duplicates the session instead of shrinking or preserving
the snapshot set (contrast `replace_old_sessions_length_le`). -/
theorem c4_auto_recover_grows_store :
    recStore.length = 1 ∧
    (auto_recover_session recEnv 1 2 recStore).length = 2 ∧
    dictGet (auto_recover_session recEnv 1 2 recStore) "1_2_100" =
      dictGet recStore "1_2_100" := by
  refine ⟨rfl, by decide, by decide⟩
